import Mathlib

/-!
Verification of the scalingsnapshots log-processing pipeline.

Shallow embedding of:
* `generate_package_data/__init__.py` — `PackageData`, `_handle_download`,
  `handle_downloads` (download/session counters);
* `sslogs/goodbye.py` — `_reverse_readline` and `goodbyeify`;
* `sslogs/pypi.py` — `_canonicalize_package`, `_run_initial_query`,
  `_run_up_down_query` (the upload/download merge);
* `sslogs/logs.py` — `LogEntry.to_dict` timestamp serialization.

Python `collections.Counter` objects are embedded as association lists
`List (κ × Nat)` (insertion-ordered, as Python dicts are); a key is present
with a positive count exactly when the Python counter stores it.
-/

namespace SSnap

/-- Increment a counter key, mirroring Python `counter[k] += 1`: an absent
key is inserted with count 1 at the end (dict insertion order). -/
def cincr {κ : Type} [DecidableEq κ] (c : List (κ × Nat)) (k : κ) : List (κ × Nat) :=
  match c with
  | [] => [(k, 1)]
  | (k₀, n) :: rest => if k₀ = k then (k₀, n + 1) :: rest else (k₀, n) :: cincr rest k

/-- Total of all counts in a counter. -/
def ctotal {κ : Type} (c : List (κ × Nat)) : Nat :=
  (c.map Prod.snd).sum

/-- Look up a key's count (0 when absent), mirroring `counter[k]` reads. -/
def cget {κ : Type} [DecidableEq κ] (c : List (κ × Nat)) (k : κ) : Nat :=
  match c with
  | [] => 0
  | (k₀, n) :: rest => if k₀ = k then n else cget rest k

/-- `SESSION_DURATION = datetime.timedelta(minutes=1)`, in seconds.
Timestamps are embedded as integer seconds. -/
def SESSION_DURATION : Int := 60

/-- `(timestamp.isoweekday(), timestamp.hour)` for a timestamp in seconds
since the epoch (1970-01-01 was a Thursday, ISO weekday 4). -/
def hourOfWeek (t : Int) : Int × Int :=
  (((t.ediv 86400 + 3).emod 7) + 1, (t.emod 86400).ediv 3600)

/-- The `PackageData` dataclass of `generate_package_data/__init__.py`. -/
structure PackageData where
  dls_by_package : List (String × Nat) := []
  dls_by_user : List (String × Nat) := []
  dls_by_hour : List ((Int × Int) × Nat) := []
  sessions_by_user : List (String × Nat) := []
  sessions_by_hour : List ((Int × Int) × Nat) := []
  sessions_by_count : List (Nat × Nat) := []
  users_in_cur_session : List String := []
  cur_session_start : Option Int := none
  downloads_in_cur_session : Nat := 0
  sessions_count : Nat := 0
  dls_count : Nat := 0
  start_time : Option Int := none
  end_time : Option Int := none
deriving Repr, DecidableEq

/-- A fresh `PackageData()`. -/
def PackageData.init : PackageData := {}

/-- The session-opening condition of `_handle_download`:
`cur_session_start is None or cur_session_start + SESSION_DURATION < timestamp`. -/
def newSessionCond (st : PackageData) (timestamp : Int) : Bool :=
  match st.cur_session_start with
  | none => true
  | some s => decide (s + SESSION_DURATION < timestamp)

/-- `PackageData._handle_download(userid, packageid, timestamp)`.

Each field of the result is the value the corresponding attribute holds when
the Python method returns; the statements of the method only ever read
attributes they have not yet overwritten, so every field can be written as a
function of the pre-state `st`:

* `start_time` is set to `timestamp` only when previously unset;
* the four `dls_*` accumulators are incremented unconditionally;
* when `cur_session_start is None or cur_session_start + SESSION_DURATION <
  timestamp` (`newSess`), the previous session (if any) is flushed into
  `sessions_by_count`, and the session state is reset;
* `downloads_in_cur_session` is incremented after the possible reset;
* `userid` is added to `users_in_cur_session` (read after the possible
  reset) and `sessions_by_user` bumped when it was not already there. -/
def handleDownload (st : PackageData) (userid packageid : String) (timestamp : Int) :
    PackageData :=
  let how := hourOfWeek timestamp
  let newSess := newSessionCond st timestamp
  let users0 := if newSess then [] else st.users_in_cur_session
  let fresh : Bool := ! users0.contains userid
  { dls_by_package := cincr st.dls_by_package packageid
    dls_by_user := cincr st.dls_by_user userid
    dls_by_hour := cincr st.dls_by_hour how
    sessions_by_user :=
      if fresh then cincr st.sessions_by_user userid else st.sessions_by_user
    sessions_by_hour := if newSess then cincr st.sessions_by_hour how else st.sessions_by_hour
    sessions_by_count :=
      if newSess then
        if st.cur_session_start = none then st.sessions_by_count
        else cincr st.sessions_by_count st.downloads_in_cur_session
      else st.sessions_by_count
    users_in_cur_session := if fresh then userid :: users0 else users0
    cur_session_start := if newSess then some timestamp else st.cur_session_start
    downloads_in_cur_session := (if newSess then 0 else st.downloads_in_cur_session) + 1
    sessions_count := if newSess then st.sessions_count + 1 else st.sessions_count
    dls_count := st.dls_count + 1
    start_time := if st.start_time = none then some timestamp else st.start_time
    end_time := st.end_time }

/-- One parsed input line of `handle_downloads`: `(user_id, package_id, timestamp)`. -/
structure DlLine where
  user : String
  pkg : String
  ts : Int
deriving Repr, DecidableEq

/-- `PackageData.handle_downloads(lines)`: fold `_handle_download` over the
lines, record the last timestamp as `end_time`, then unconditionally run
`self.sessions_by_count[self.downloads_in_cur_session] += 1`. -/
def handleDownloads (st : PackageData) (lines : List DlLine) : PackageData :=
  let st := lines.foldl (fun s l => handleDownload s l.user l.pkg l.ts) st
  let st :=
    match (lines.map DlLine.ts).getLast? with
    | some t => { st with end_time := some t }
    | none => st
  { st with sessions_by_count := cincr st.sessions_by_count st.downloads_in_cur_session }

/-- Folding `_handle_download` over a list of parsed lines from a fresh state. -/
def runDownloads (lines : List DlLine) : PackageData :=
  lines.foldl (fun s l => handleDownload s l.user l.pkg l.ts) PackageData.init

theorem ctotal_cincr {κ : Type} [DecidableEq κ] (c : List (κ × Nat)) (k : κ) :
    ctotal (cincr c k) = ctotal c + 1 := by
  induction c with
  | nil => simp [cincr, ctotal]
  | cons hd tl ih =>
    obtain ⟨k₀, n⟩ := hd
    by_cases h : k₀ = k <;> simp [cincr, h, ctotal] at * <;> omega

/-- **C4** (corrected). On an empty input stream, `handle_downloads` does not
leave every counter empty: the final unconditional
`sessions_by_count[downloads_in_cur_session] += 1` flushes a phantom
zero-download session, so `sessions_by_count` ends as `{0: 1}`. -/
theorem handleDownloads_empty_sessions_by_count_nonempty :
    (handleDownloads PackageData.init []).sessions_by_count ≠ [] := by
  decide

/-- **C4 amended.** On an empty input stream `handle_downloads` terminates
normally with `sessions_count = 0`, all download counters and per-user /
per-hour session counters empty, no open session state, and
`sessions_by_count = {0: 1}` coming from the unconditional final flush. -/
theorem handleDownloads_empty_state :
    handleDownloads PackageData.init [] = { sessions_by_count := [(0, 1)] } := by
  decide

/-- **C5** (confirmed). A new session is opened by `_handle_download` exactly
when no session is open or the timestamp exceeds the current session's start
by strictly more than `SESSION_DURATION` (1 minute), the start being global
across users; and for downloads by user `"u"` at 0s, 30s and 91s,
`handle_downloads` ends with `sessions_by_count = {2: 1, 1: 1}`,
`sessions_count = 2` and `dls_by_user["u"] = 3`. -/
theorem session_opening_rule :
    (∀ (st : PackageData) (u p : String) (t : Int),
        (handleDownload st u p t).sessions_count = st.sessions_count + 1 ↔
          (st.cur_session_start = none ∨
            ∃ s0, st.cur_session_start = some s0 ∧ s0 + SESSION_DURATION < t)) ∧
    (∀ (st : PackageData) (u p : String) (t : Int),
        ¬(st.cur_session_start = none ∨
            ∃ s0, st.cur_session_start = some s0 ∧ s0 + SESSION_DURATION < t) →
          (handleDownload st u p t).sessions_count = st.sessions_count) ∧
    (handleDownloads PackageData.init
        [⟨"u", "p", 0⟩, ⟨"u", "p", 30⟩, ⟨"u", "p", 91⟩]).sessions_by_count =
      [(2, 1), (1, 1)] ∧
    (handleDownloads PackageData.init
        [⟨"u", "p", 0⟩, ⟨"u", "p", 30⟩, ⟨"u", "p", 91⟩]).sessions_count = 2 ∧
    cget (handleDownloads PackageData.init
        [⟨"u", "p", 0⟩, ⟨"u", "p", 30⟩, ⟨"u", "p", 91⟩]).dls_by_user "u" = 3 := by
  refine ⟨?_, ?_, by decide, by decide, by decide⟩ <;>
    intro st u p t <;>
    cases h : st.cur_session_start with
  | none => simp [handleDownload, newSessionCond, h]
  | some s =>
    by_cases hlt : s + SESSION_DURATION < t <;>
      simp [handleDownload, newSessionCond, h, hlt]

/-- **C10** (confirmed). After any sequence of `_handle_download` calls from a
fresh `PackageData`, `dls_count` equals the total of `dls_by_package`, of
`dls_by_user`, and of `dls_by_hour`. -/
theorem dls_count_eq_counter_totals (lines : List DlLine) :
    (runDownloads lines).dls_count = ctotal (runDownloads lines).dls_by_package ∧
    (runDownloads lines).dls_count = ctotal (runDownloads lines).dls_by_user ∧
    (runDownloads lines).dls_count = ctotal (runDownloads lines).dls_by_hour := by
  have step : ∀ (s : PackageData) (l : DlLine),
      (s.dls_count = ctotal s.dls_by_package ∧ s.dls_count = ctotal s.dls_by_user ∧
        s.dls_count = ctotal s.dls_by_hour) →
      ((handleDownload s l.user l.pkg l.ts).dls_count =
          ctotal (handleDownload s l.user l.pkg l.ts).dls_by_package ∧
        (handleDownload s l.user l.pkg l.ts).dls_count =
          ctotal (handleDownload s l.user l.pkg l.ts).dls_by_user ∧
        (handleDownload s l.user l.pkg l.ts).dls_count =
          ctotal (handleDownload s l.user l.pkg l.ts).dls_by_hour) := by
    rintro s l ⟨h1, h2, h3⟩
    refine ⟨?_, ?_, ?_⟩ <;> simp [handleDownload, ctotal_cincr] <;> omega
  have fold : ∀ (ls : List DlLine) (s : PackageData),
      (s.dls_count = ctotal s.dls_by_package ∧ s.dls_count = ctotal s.dls_by_user ∧
        s.dls_count = ctotal s.dls_by_hour) →
      ((ls.foldl (fun s l => handleDownload s l.user l.pkg l.ts) s).dls_count =
          ctotal (ls.foldl (fun s l => handleDownload s l.user l.pkg l.ts) s).dls_by_package ∧
        (ls.foldl (fun s l => handleDownload s l.user l.pkg l.ts) s).dls_count =
          ctotal (ls.foldl (fun s l => handleDownload s l.user l.pkg l.ts) s).dls_by_user ∧
        (ls.foldl (fun s l => handleDownload s l.user l.pkg l.ts) s).dls_count =
          ctotal (ls.foldl (fun s l => handleDownload s l.user l.pkg l.ts) s).dls_by_hour) := by
    intro ls
    induction ls with
    | nil => intro s h; exact h
    | cons l ls ih => intro s h; exact ih _ (step s l h)
  exact fold lines PackageData.init (by decide)

/-!
## `sslogs/goodbye.py` — `goodbyeify`

Event-level embedding of the log records: one line of the jsonl log is one
`Event` (a timestamp plus an `action` variant).  `goodbyeify` reads the
input lines in reverse order (via `_reverse_readline`; the lines are
nonempty JSON records, so that pass is exact list reversal — see the
`revReadline` development below), writes a `Goodbye` line just before the
first reversed `Download` of each not-yet-seen user, copying the download's
record and so its timestamp, and finally reverses the temporary file into
the output.
-/

/-- The `action` variants occurring in the jsonl logs. -/
inductive Action where
  | download (user : String) (pkg : String)
  | publish (pkg : String)
  | refreshMetadata (user : String)
  | goodbye (user : String)
deriving Repr, DecidableEq

/-- One parsed log line: a timestamp and an action. -/
structure Event where
  ts : Int
  act : Action
deriving Repr, DecidableEq

/-- The first pass of `goodbyeify`: iterate over the reversed lines with a
`seen` set; a `Download` whose user is unseen gets a `Goodbye` record
(deep copy with the action replaced, hence the same timestamp) written
just before it. -/
def goodbyePass : List Event → List String → List Event
  | [], _ => []
  | e :: rest, seen =>
    match e.act with
    | .download u _ =>
      if u ∈ seen then e :: goodbyePass rest seen
      else Event.mk e.ts (.goodbye u) :: e :: goodbyePass rest (u :: seen)
    | _ => e :: goodbyePass rest seen

/-- `goodbyeify`: first pass over the reversed input, then reverse the
temporary file into the output. -/
def goodbyeify (log : List Event) : List Event :=
  (goodbyePass log.reverse []).reverse

/-- Is `e` a `Download` by user `u`? -/
def isDownloadBy (u : String) (e : Event) : Bool :=
  match e.act with
  | .download v _ => v == u
  | _ => false

/-- Is `e` a `Goodbye` for user `u`? -/
def isGoodbyeFor (u : String) (e : Event) : Bool :=
  match e.act with
  | .goodbye v => v == u
  | _ => false

/-- Is `e` a `Goodbye` for anyone? -/
def isGoodbyeAny (e : Event) : Bool :=
  match e.act with
  | .goodbye _ => true
  | _ => false

/-- Does the log contain a `Download` by `u`? -/
def hasDownloadBy (u : String) (l : List Event) : Bool :=
  l.any (isDownloadBy u)

/-- Number of `Goodbye(u)` events in the log. -/
def countGoodbye (u : String) (l : List Event) : Nat :=
  (l.filter (isGoodbyeFor u)).length

theorem countGoodbye_cons (u : String) (e : Event) (l : List Event) :
    countGoodbye u (e :: l) =
      (if isGoodbyeFor u e then 1 else 0) + countGoodbye u l := by
  by_cases h : isGoodbyeFor u e <;> simp [countGoodbye, List.filter_cons, h] <;> omega

theorem hasDownloadBy_cons (u : String) (e : Event) (l : List Event) :
    hasDownloadBy u (e :: l) = (isDownloadBy u e || hasDownloadBy u l) := by
  simp [hasDownloadBy]

theorem goodbyePass_count (u : String) :
    ∀ (r : List Event) (seen : List String),
      (∀ e ∈ r, isGoodbyeAny e = false) →
      countGoodbye u (goodbyePass r seen) =
        (if u ∈ seen then 0 else if hasDownloadBy u r then 1 else 0) := by
  intro r
  induction r with
  | nil => intro seen _; simp [goodbyePass, countGoodbye, hasDownloadBy]
  | cons e rest ih =>
    intro seen hng
    have hng_e : isGoodbyeAny e = false := hng e (by simp)
    have hng_rest : ∀ e₂ ∈ rest, isGoodbyeAny e₂ = false := fun e₂ h => hng e₂ (by simp [h])
    obtain ⟨ts, act⟩ := e
    cases act with
    | download v pkg =>
      by_cases hseen : v ∈ seen
      · have hih := ih seen hng_rest
        simp only [goodbyePass, if_pos hseen, countGoodbye_cons]
        rw [hih, hasDownloadBy_cons]
        by_cases hv : v = u <;>
          simp [isGoodbyeFor, isDownloadBy, hv, hseen] <;>
          simp [hv ▸ hseen]
      · have hih := ih (v :: seen) hng_rest
        simp only [goodbyePass, if_neg hseen, countGoodbye_cons]
        rw [hih, hasDownloadBy_cons]
        by_cases hv : v = u
        · subst hv
          simp [isGoodbyeFor, isDownloadBy, hseen]
        · simp [isGoodbyeFor, isDownloadBy, hv, List.mem_cons, Ne.symm hv]
    | publish pkg =>
      have hih := ih seen hng_rest
      simp only [goodbyePass, countGoodbye_cons]
      rw [hih, hasDownloadBy_cons]
      simp [isGoodbyeFor, isDownloadBy]
    | refreshMetadata v =>
      have hih := ih seen hng_rest
      simp only [goodbyePass, countGoodbye_cons]
      rw [hih, hasDownloadBy_cons]
      simp [isGoodbyeFor, isDownloadBy]
    | goodbye v =>
      exact absurd hng_e (by simp [isGoodbyeAny])

theorem isGoodbyeFor_false_of_any (u : String) (e : Event) (h : isGoodbyeAny e = false) :
    isGoodbyeFor u e = false := by
  obtain ⟨ts, act⟩ := e
  cases act <;> simp_all [isGoodbyeAny, isGoodbyeFor]

theorem countGoodbye_reverse (u : String) (l : List Event) :
    countGoodbye u l.reverse = countGoodbye u l := by
  simp [countGoodbye, List.filter_reverse]

theorem hasDownloadBy_reverse (u : String) (l : List Event) :
    hasDownloadBy u l.reverse = hasDownloadBy u l := by
  simp only [hasDownloadBy]
  rw [Bool.eq_iff_iff]
  simp [List.any_eq_true, List.mem_reverse]

/-- On the reversed log, the first pass inserts the `Goodbye(u)` directly in
front of the first `Download` by `u` it meets, which (the reversed log being
non-increasing) carries the maximal timestamp among `u`'s downloads; nothing
before it concerns `u`. -/
theorem goodbyePass_structure (u : String) :
    ∀ (r : List Event) (seen : List String),
      u ∉ seen →
      (∀ e ∈ r, isGoodbyeFor u e = false) →
      List.Pairwise (fun a b => b.ts ≤ a.ts) r →
      hasDownloadBy u r = true →
      ∃ A d B, goodbyePass r seen = A ++ Event.mk d.ts (.goodbye u) :: d :: B ∧
        isDownloadBy u d = true ∧
        (∀ e ∈ A, isDownloadBy u e = false ∧ isGoodbyeFor u e = false) ∧
        (∀ e ∈ r, isDownloadBy u e = true → e.ts ≤ d.ts) := by
  intro r
  induction r with
  | nil => intro seen _ _ _ hdl; simp [hasDownloadBy] at hdl
  | cons e rest ih =>
    intro seen hu hng hpw hdl
    have hng_e : isGoodbyeFor u e = false := hng e (by simp)
    have hng_rest : ∀ e₂ ∈ rest, isGoodbyeFor u e₂ = false :=
      fun e₂ h => hng e₂ (by simp [h])
    have hpw_head : ∀ b ∈ rest, b.ts ≤ e.ts := (List.pairwise_cons.mp hpw).1
    have hpw_rest : List.Pairwise (fun a b => b.ts ≤ a.ts) rest :=
      (List.pairwise_cons.mp hpw).2
    obtain ⟨ts, act⟩ := e
    cases act with
    | download v pkg =>
      by_cases hv : v = u
      · subst hv
        refine ⟨[], ⟨ts, .download v pkg⟩, goodbyePass rest (v :: seen), ?_, ?_, ?_, ?_⟩
        · simp [goodbyePass, hu]
        · simp [isDownloadBy]
        · simp
        · intro e₂ he₂ _
          rcases List.mem_cons.mp he₂ with h | h
          · simp [h]
          · exact hpw_head e₂ h
      · have hdl_rest : hasDownloadBy u rest = true := by
          rw [hasDownloadBy_cons] at hdl
          simpa [isDownloadBy, hv] using hdl
        by_cases hseen : v ∈ seen
        · obtain ⟨A, d, B, heq, hd, hA, hts⟩ := ih seen hu hng_rest hpw_rest hdl_rest
          refine ⟨⟨ts, .download v pkg⟩ :: A, d, B, ?_, hd, ?_, ?_⟩
          · simp [goodbyePass, hseen, heq]
          · intro e₂ he₂
            rcases List.mem_cons.mp he₂ with h | h
            · simp [h, isDownloadBy, isGoodbyeFor, hv]
            · exact hA e₂ h
          · intro e₂ he₂ hdlb
            rcases List.mem_cons.mp he₂ with h | h
            · subst h; simp [isDownloadBy, hv] at hdlb
            · exact hts e₂ h hdlb
        · have hu₂ : u ∉ v :: seen := by
            simp [List.mem_cons, Ne.symm hv, hu]
          obtain ⟨A, d, B, heq, hd, hA, hts⟩ := ih (v :: seen) hu₂ hng_rest hpw_rest hdl_rest
          refine ⟨⟨ts, .goodbye v⟩ :: ⟨ts, .download v pkg⟩ :: A, d, B, ?_, hd, ?_, ?_⟩
          · simp [goodbyePass, hseen, heq]
          · intro e₂ he₂
            rcases List.mem_cons.mp he₂ with h | h
            · simp [h, isDownloadBy, isGoodbyeFor, hv]
            · rcases List.mem_cons.mp h with h₂ | h₂
              · simp [h₂, isDownloadBy, isGoodbyeFor, hv]
              · exact hA e₂ h₂
          · intro e₂ he₂ hdlb
            rcases List.mem_cons.mp he₂ with h | h
            · subst h; simp [isDownloadBy, hv] at hdlb
            · exact hts e₂ h hdlb
    | publish pkg =>
      have hdl_rest : hasDownloadBy u rest = true := by
        rw [hasDownloadBy_cons] at hdl
        simpa [isDownloadBy] using hdl
      obtain ⟨A, d, B, heq, hd, hA, hts⟩ := ih seen hu hng_rest hpw_rest hdl_rest
      refine ⟨⟨ts, .publish pkg⟩ :: A, d, B, ?_, hd, ?_, ?_⟩
      · simp [goodbyePass, heq]
      · intro e₂ he₂
        rcases List.mem_cons.mp he₂ with h | h
        · simp [h, isDownloadBy, isGoodbyeFor]
        · exact hA e₂ h
      · intro e₂ he₂ hdlb
        rcases List.mem_cons.mp he₂ with h | h
        · subst h; simp [isDownloadBy] at hdlb
        · exact hts e₂ h hdlb
    | refreshMetadata v =>
      have hdl_rest : hasDownloadBy u rest = true := by
        rw [hasDownloadBy_cons] at hdl
        simpa [isDownloadBy] using hdl
      obtain ⟨A, d, B, heq, hd, hA, hts⟩ := ih seen hu hng_rest hpw_rest hdl_rest
      refine ⟨⟨ts, .refreshMetadata v⟩ :: A, d, B, ?_, hd, ?_, ?_⟩
      · simp [goodbyePass, heq]
      · intro e₂ he₂
        rcases List.mem_cons.mp he₂ with h | h
        · simp [h, isDownloadBy, isGoodbyeFor]
        · exact hA e₂ h
      · intro e₂ he₂ hdlb
        rcases List.mem_cons.mp he₂ with h | h
        · subst h; simp [isDownloadBy] at hdlb
        · exact hts e₂ h hdlb
    | goodbye v =>
      have hdl_rest : hasDownloadBy u rest = true := by
        rw [hasDownloadBy_cons] at hdl
        simpa [isDownloadBy] using hdl
      obtain ⟨A, d, B, heq, hd, hA, hts⟩ := ih seen hu hng_rest hpw_rest hdl_rest
      refine ⟨⟨ts, .goodbye v⟩ :: A, d, B, ?_, hd, ?_, ?_⟩
      · simp [goodbyePass, heq]
      · intro e₂ he₂
        rcases List.mem_cons.mp he₂ with h | h
        · refine ⟨by simp [h, isDownloadBy], ?_⟩
          rw [h]
          exact hng_e
        · exact hA e₂ h
      · intro e₂ he₂ hdlb
        rcases List.mem_cons.mp he₂ with h | h
        · subst h; simp [isDownloadBy] at hdlb
        · exact hts e₂ h hdlb

/-- **C1** (confirmed). For a chronologically ordered input log with no
pre-existing `Goodbye` events, the output of `goodbyeify` contains exactly
one `Goodbye(u)` when `u` appears in some `Download` and none otherwise; the
`Goodbye(u)` carries the timestamp of `u`'s positionally last `Download`
(whose timestamp is maximal among `u`'s downloads) and sits immediately
after it, with no `Download` by `u` and no other `Goodbye(u)` after that
point — in particular no `Goodbye(u)` precedes any `Download` by `u`, and
users occurring only in `RefreshMetadata`/`Publish` get no `Goodbye`. -/
theorem goodbyeify_spec (log : List Event) (u : String)
    (hsorted : List.Pairwise (fun a b => a.ts ≤ b.ts) log)
    (hng : ∀ e ∈ log, isGoodbyeAny e = false) :
    countGoodbye u (goodbyeify log) = (if hasDownloadBy u log then 1 else 0) ∧
    (hasDownloadBy u log = true →
      ∃ C d D, goodbyeify log = C ++ d :: Event.mk d.ts (.goodbye u) :: D ∧
        isDownloadBy u d = true ∧
        (∀ e ∈ D, isDownloadBy u e = false ∧ isGoodbyeFor u e = false) ∧
        (∀ e ∈ log, isDownloadBy u e = true → e.ts ≤ d.ts)) := by
  have hng_rev : ∀ e ∈ log.reverse, isGoodbyeAny e = false :=
    fun e h => hng e (List.mem_reverse.mp h)
  constructor
  · rw [goodbyeify, countGoodbye_reverse,
      goodbyePass_count u log.reverse [] hng_rev]
    simp [hasDownloadBy_reverse]
  · intro hdl
    have hdl_rev : hasDownloadBy u log.reverse = true := by
      rw [hasDownloadBy_reverse]; exact hdl
    have hpw_rev : List.Pairwise (fun a b => b.ts ≤ a.ts) log.reverse :=
      List.pairwise_reverse.mpr hsorted
    obtain ⟨A, d, B, heq, hd, hA, hts⟩ :=
      goodbyePass_structure u log.reverse [] (by simp)
        (fun e h => isGoodbyeFor_false_of_any u e (hng_rev e h)) hpw_rev hdl_rev
    refine ⟨B.reverse, d, A.reverse, ?_, hd, ?_, ?_⟩
    · rw [goodbyeify, heq]
      simp
    · intro e he
      exact hA e (List.mem_reverse.mp he)
    · intro e he
      exact hts e (List.mem_reverse.mpr he)

/-- Witness for `goodbyeify_spec`: a concrete three-event log in which user
`"a"` downloads twice (last at time 2) and `"b"` only refreshes. -/
theorem goodbyeify_spec_witness :
    (List.Pairwise (fun a b => a.ts ≤ b.ts)
        [Event.mk 0 (.download "a" "p"), Event.mk 1 (.refreshMetadata "b"),
          Event.mk 2 (.download "a" "q")] ∧
      ∀ e ∈ [Event.mk 0 (.download "a" "p"), Event.mk 1 (.refreshMetadata "b"),
          Event.mk 2 (.download "a" "q")], isGoodbyeAny e = false) ∧
    (countGoodbye "a" (goodbyeify
        [Event.mk 0 (.download "a" "p"), Event.mk 1 (.refreshMetadata "b"),
          Event.mk 2 (.download "a" "q")]) =
      (if hasDownloadBy "a"
          [Event.mk 0 (.download "a" "p"), Event.mk 1 (.refreshMetadata "b"),
            Event.mk 2 (.download "a" "q")] then 1 else 0) ∧
      (hasDownloadBy "a"
          [Event.mk 0 (.download "a" "p"), Event.mk 1 (.refreshMetadata "b"),
            Event.mk 2 (.download "a" "q")] = true →
        ∃ C d D, goodbyeify
            [Event.mk 0 (.download "a" "p"), Event.mk 1 (.refreshMetadata "b"),
              Event.mk 2 (.download "a" "q")] =
              C ++ d :: Event.mk d.ts (.goodbye "a") :: D ∧
          isDownloadBy "a" d = true ∧
          (∀ e ∈ D, isDownloadBy "a" e = false ∧ isGoodbyeFor "a" e = false) ∧
          (∀ e ∈ [Event.mk 0 (.download "a" "p"), Event.mk 1 (.refreshMetadata "b"),
              Event.mk 2 (.download "a" "q")],
            isDownloadBy "a" e = true → e.ts ≤ d.ts))) :=
  ⟨⟨by decide, by decide⟩,
    goodbyeify_spec
      [Event.mk 0 (.download "a" "p"), Event.mk 1 (.refreshMetadata "b"),
        Event.mk 2 (.download "a" "q")] "a" (by decide) (by decide)⟩

/-!
## `sslogs/goodbye.py` — `_reverse_readline`

Character-level embedding.  A file is a `List Char`.  `_reverse_readline`
walks the file in chunks of `buf_size` characters starting from the end
(`chunksFromEnd` lists the chunks in file order: the first chunk is the
one short chunk, if any, and the generator processes the reversed list),
splits each chunk at `"\n"`, carries the first split piece of each chunk
over to the next (earlier) chunk as `segment`, and yields the remaining
pieces in reverse order, skipping empty ones; a carried segment is yielded
unfiltered when the earlier chunk ends in `"\n"`, and the final segment is
yielded at the end. -/

/-- Python `buffer.split("\n")`: the list of pieces between newline
characters (always nonempty; pieces do not contain the separator). -/
def splitNl : List Char → List (List Char)
  | [] => [[]]
  | c :: s =>
    match splitNl s with
    | [] => [[]]
    | l :: ls => if c = '\n' then [] :: l :: ls else (c :: l) :: ls

theorem splitNl_ne_nil (s : List Char) : splitNl s ≠ [] := by
  induction s with
  | nil => simp [splitNl]
  | cons c s ih =>
    simp only [splitNl]
    cases h : splitNl s with
    | nil => exact absurd h ih
    | cons l ls =>
      by_cases hc : c = '\n' <;> simp [hc]

theorem splitNl_cons_nl (s : List Char) : splitNl ('\n' :: s) = [] :: splitNl s := by
  cases h : splitNl s with
  | nil => exact absurd h (splitNl_ne_nil s)
  | cons l ls => simp [splitNl, h]

theorem splitNl_cons_ch (c : Char) (s : List Char) (hc : c ≠ '\n') :
    splitNl (c :: s) = (c :: (splitNl s).headD []) :: (splitNl s).tail := by
  cases h : splitNl s with
  | nil => exact absurd h (splitNl_ne_nil s)
  | cons l ls => simp [splitNl, h, hc]

theorem splitNl_headD_tail (s : List Char) :
    (splitNl s).headD [] :: (splitNl s).tail = splitNl s := by
  cases h : splitNl s with
  | nil => exact absurd h (splitNl_ne_nil s)
  | cons l ls => simp

theorem getLastD_cons_of_ne_nil {α : Type} (a d : α) (l : List α) (h : l ≠ []) :
    (a :: l).getLastD d = l.getLastD d := by
  cases l with
  | nil => exact absurd rfl h
  | cons x xs => simp [List.getLastD_cons]

theorem getLastD_append_of_ne_nil {α : Type} (d : α) (A B : List α) (h : B ≠ []) :
    (A ++ B).getLastD d = B.getLastD d := by
  rw [List.getLastD_eq_getLast?, List.getLastD_eq_getLast?,
    List.getLast?_append_of_ne_nil _ h]

theorem dropLast_append_getLastD {α : Type} (d : α) (l : List α) (h : l ≠ []) :
    l.dropLast ++ [l.getLastD d] = l := by
  have := List.dropLast_append_getLast h
  rw [List.getLastD_eq_getLast?, List.getLast?_eq_getLast l h]
  simpa using this

theorem tail_reverse_headD {α : Type} (d : α) (l : List α) (h : l ≠ []) :
    l.tail.reverse ++ [l.headD d] = l.reverse := by
  cases l with
  | nil => exact absurd rfl h
  | cons x xs => simp

/-- `split` composes over append: the last piece of `x` and the first piece
of `y` fuse into one piece. -/
theorem splitNl_append (x y : List Char) :
    splitNl (x ++ y) =
      (splitNl x).dropLast ++
        ((splitNl x).getLastD [] ++ (splitNl y).headD []) :: (splitNl y).tail := by
  induction x with
  | nil =>
    simpa [splitNl] using (splitNl_headD_tail y).symm
  | cons c x ih =>
    cases hx : splitNl x with
    | nil => exact absurd hx (splitNl_ne_nil x)
    | cons a as =>
      by_cases hc : c = '\n'
      · subst hc
        rw [List.cons_append, splitNl_cons_nl, splitNl_cons_nl, ih, hx]
        cases as with
        | nil => simp [List.getLastD_cons]
        | cons a₂ as₂ =>
          rw [List.dropLast_cons₂]
          rw [show ((([] : List Char) :: a :: a₂ :: as₂).getLastD []) =
              ((a :: a₂ :: as₂).getLastD []) from
            getLastD_cons_of_ne_nil _ _ _ (by simp)]
          simp
      · rw [List.cons_append, splitNl_cons_ch c _ hc, splitNl_cons_ch c _ hc, ih, hx]
        cases as with
        | nil =>
          simp [List.getLastD_cons]
        | cons a₂ as₂ =>
          simp only [List.headD_cons, List.tail_cons, List.dropLast_cons₂]
          rw [show (((c :: a) :: a₂ :: as₂).getLastD []) =
              ((a₂ :: as₂).getLastD []) from getLastD_cons_of_ne_nil _ _ _ (by simp)]
          rw [show ((a :: a₂ :: as₂).getLastD []) = ((a₂ :: as₂).getLastD []) from
            getLastD_cons_of_ne_nil _ _ _ (by simp)]
          simp

theorem splitNl_singleton (c : Char) (hc : c ≠ '\n') : splitNl [c] = [[c]] := by
  simp [splitNl, hc]

/-- The final split piece is empty exactly when the (nonempty) string ends
with a newline. -/
theorem splitNl_lastPiece_empty_iff (s : List Char) (hs : s ≠ []) :
    (splitNl s).getLastD [] = [] ↔ s.getLast? = some '\n' := by
  rcases List.eq_nil_or_concat s with h | ⟨L, c, h⟩
  · exact absurd h hs
  · subst h
    rw [List.concat_eq_append, List.getLast?_concat]
    by_cases hc : c = '\n'
    · subst hc
      rw [splitNl_append L ['\n'], splitNl_cons_nl]
      simp only [splitNl]
      rw [getLastD_append_of_ne_nil _ _ _ (by simp)]
      simp
    · rw [splitNl_append L [c], splitNl_singleton c hc]
      rw [getLastD_append_of_ne_nil _ _ _ (by simp)]
      simp [hc]

/-- A string ending in a newline splits into a nonempty list of pieces
followed by one final empty piece. -/
theorem splitNl_ends_nl (s : List Char) (h : s.getLast? = some '\n') :
    ∃ D, splitNl s = D ++ [[]] ∧ D ≠ [] := by
  rcases List.eq_nil_or_concat s with hnil | ⟨L, c, hcat⟩
  · subst hnil; simp at h
  · subst hcat
    rw [List.concat_eq_append, List.getLast?_concat] at h
    have hc : c = '\n' := by simpa using h
    subst hc
    refine ⟨(splitNl L).dropLast ++ [(splitNl L).getLastD [] ++ []], ?_, by simp⟩
    rw [List.concat_eq_append, splitNl_append L ['\n'], splitNl_cons_nl]
    simp [splitNl]

/-- If a nonempty string has a single split piece, that piece is nonempty. -/
theorem splitNl_headD_ne_of_tail_nil (s : List Char) (hs : s ≠ [])
    (ht : (splitNl s).tail = []) : (splitNl s).headD [] ≠ [] := by
  cases s with
  | nil => exact absurd rfl hs
  | cons c z =>
    by_cases hc : c = '\n'
    · subst hc
      rw [splitNl_cons_nl] at ht
      exact absurd ht (splitNl_ne_nil z)
    · rw [splitNl_cons_ch c z hc]
      simp

/-- The split pieces of a chunk with its last piece extended by the carried
segment `sg` (Python `lines[-1] += segment`; when there is a single piece
this also extends `lines[0]`). -/
def extPieces (u : List Char) (sg : List Char) : List (List Char) :=
  (splitNl u).dropLast ++ [(splitNl u).getLastD [] ++ sg]

/-- One iteration of the `_reverse_readline` loop body on a chunk: returns
the pieces yielded by this iteration (in yield order) and the new
`segment`.  With no incoming segment (first iteration) the pieces after the
first are yielded in reverse order, skipping empty ones, and the first
piece becomes the segment.  With an incoming segment, if the chunk ends in
`"\n"` the segment is a complete line and is yielded first (unfiltered);
otherwise it is appended to the chunk's last piece. -/
def processChunk (chunk : List Char) (seg : Option (List Char)) :
    List (List Char) × List Char :=
  match seg with
  | none =>
    (((splitNl chunk).tail.reverse).filter (fun l => ! l.isEmpty),
      (splitNl chunk).headD [])
  | some sg =>
    if chunk.getLast? = some '\n' then
      (sg :: ((splitNl chunk).tail.reverse).filter (fun l => ! l.isEmpty),
        (splitNl chunk).headD [])
    else
      (((extPieces chunk sg).tail.reverse).filter (fun l => ! l.isEmpty),
        (extPieces chunk sg).headD [])

/-- The chunks read by `_reverse_readline` in file order: all of size
`b` except the first, which holds the `length mod b` leftover (the
generator seeks to `file_size - min(file_size, offset + buf_size)` and
reads `min(remaining_size, buf_size)`, so processes exactly these chunks
from the last to the first). -/
def chunksFromEndFuel : Nat → Nat → List Char → List (List Char)
  | 0, _, s => [s]
  | fuel + 1, b, s =>
    if s.length ≤ b ∨ b = 0 then [s]
    else chunksFromEndFuel fuel b (s.take (s.length - b)) ++ [s.drop (s.length - b)]

def chunksFromEnd (b : Nat) (s : List Char) : List (List Char) :=
  chunksFromEndFuel s.length b s

theorem chunksFromEndFuel_congr :
    ∀ (f₁ : Nat), ∀ (f₂ b : Nat) (s : List Char), s.length ≤ f₁ → s.length ≤ f₂ →
      chunksFromEndFuel f₁ b s = chunksFromEndFuel f₂ b s := by
  intro f₁
  induction f₁ with
  | zero =>
    intro f₂ b s h1 _
    have hs : s = [] := List.eq_nil_of_length_eq_zero (Nat.le_zero.mp h1)
    subst hs
    cases f₂ with
    | zero => rfl
    | succ g => simp [chunksFromEndFuel]
  | succ f ih =>
    intro f₂ b s h1 h2
    cases f₂ with
    | zero =>
      have hs : s = [] := List.eq_nil_of_length_eq_zero (Nat.le_zero.mp h2)
      subst hs
      simp [chunksFromEndFuel]
    | succ g =>
      simp only [chunksFromEndFuel]
      by_cases hc : s.length ≤ b ∨ b = 0
      · rw [if_pos hc, if_pos hc]
      · rw [if_neg hc, if_neg hc]
        push_neg at hc
        have hlt : (s.take (s.length - b)).length = s.length - b := by
          rw [List.length_take]; omega
        rw [ih g b _ (by omega) (by omega)]

/-- One unfolding of the chunk recursion: a string no longer than the
buffer is a single chunk, otherwise the final `b` characters form the last
chunk and the rest is chunked recursively. -/
theorem chunksFromEnd_unfold (b : Nat) (s : List Char) :
    chunksFromEnd b s =
      if s.length ≤ b ∨ b = 0 then [s]
      else chunksFromEnd b (s.take (s.length - b)) ++ [s.drop (s.length - b)] := by
  cases s with
  | nil => simp [chunksFromEnd, chunksFromEndFuel]
  | cons c cs =>
    show chunksFromEndFuel (cs.length + 1) b (c :: cs) = _
    simp only [chunksFromEndFuel]
    by_cases hc : (c :: cs).length ≤ b ∨ b = 0
    · rw [if_pos hc, if_pos hc]
    · rw [if_neg hc, if_neg hc]
      push_neg at hc
      rw [chunksFromEnd,
        chunksFromEndFuel_congr cs.length
          (List.take ((c :: cs).length - b) (c :: cs)).length b
          (List.take ((c :: cs).length - b) (c :: cs))
          (by simp only [List.length_take, List.length_cons]; omega)
          (le_refl _)]

/-- The yield loop of `_reverse_readline`: process each chunk (last chunk
of the file first), threading the segment; when the chunks are exhausted,
yield the final segment if there is one. -/
def rrLoop : List (List Char) → Option (List Char) → List (List Char)
  | [], none => []
  | [], some sg => [sg]
  | chunk :: rest, seg =>
    (processChunk chunk seg).1 ++ rrLoop rest (some (processChunk chunk seg).2)

/-- `_reverse_readline(f, buf_size)`: the lines yielded, in yield order.
An empty file yields nothing (the loop never runs and `segment` stays
`None`). -/
def revReadline (b : Nat) (s : List Char) : List (List Char) :=
  if s = [] then [] else rrLoop (chunksFromEnd b s).reverse none

/-- The line sequence of a file: split at newlines, with the empty piece
after a trailing newline not counting as a line. -/
def fileLines (s : List Char) : List (List Char) :=
  if s = [] then []
  else if s.getLast? = some '\n' then (splitNl s).dropLast else splitNl s

theorem filter_ne_nil_id (l : List (List Char)) (h : ∀ x ∈ l, x ≠ []) :
    l.filter (fun x => ! x.isEmpty) = l :=
  List.filter_eq_self.mpr (fun a ha => by
    simpa [List.isEmpty_iff] using h a ha)

/-- With an incoming segment, and no empty interior piece, a loop iteration
yields exactly the extended pieces after the first, in reverse order, and
carries the first piece onward. -/
theorem processChunk_some_spec (c sg : List Char) (hc : c ≠ [])
    (Hp : ∀ l ∈ ((splitNl c).dropLast).tail, l ≠ [])
    (He : c.getLast? = some '\n' → sg ≠ []) :
    processChunk c (some sg) =
      ((extPieces c sg).tail.reverse, (extPieces c sg).headD []) := by
  by_cases hnl : c.getLast? = some '\n'
  · obtain ⟨D, hD, hDne⟩ := splitNl_ends_nl c hnl
    have hLD : (splitNl c).getLastD [] = [] := (splitNl_lastPiece_empty_iff c hc).mpr hnl
    have hdrop : (splitNl c).dropLast = D := by rw [hD, List.dropLast_concat]
    obtain ⟨d0, drest, rfl⟩ : ∃ d0 drest, D = d0 :: drest := by
      cases D with
      | nil => exact absurd rfl hDne
      | cons d0 drest => exact ⟨d0, drest, rfl⟩
    have hext : extPieces c sg = d0 :: (drest ++ [sg]) := by
      rw [extPieces, hdrop, hLD]
      simp
    have hdrest : ∀ x ∈ drest, x ≠ [] := by
      intro x hx
      exact Hp x (by simp [hdrop, hx])
    rw [processChunk, if_pos hnl, hext, hD]
    simp only [List.cons_append, List.tail_cons, List.reverse_cons, List.reverse_append]
    rw [List.filter_append]
    rw [filter_ne_nil_id drest.reverse (fun x hx => hdrest x (List.mem_reverse.mp hx))]
    simp
  · have hLne : (splitNl c).getLastD [] ≠ [] :=
      fun h => hnl ((splitNl_lastPiece_empty_iff c hc).mp h)
    have hextne : ∀ x ∈ (extPieces c sg).tail, x ≠ [] := by
      intro x hx
      cases hdrop : (splitNl c).dropLast with
      | nil =>
        rw [extPieces, hdrop] at hx
        simp at hx
      | cons d0 drest =>
        rw [extPieces, hdrop] at hx
        simp only [List.cons_append, List.tail_cons] at hx
        rcases List.mem_append.mp hx with h | h
        · exact Hp x (by simp [hdrop, h])
        · rw [List.mem_singleton.mp h]
          intro hcon
          exact hLne (List.append_eq_nil.mp hcon).1
    rw [processChunk, if_neg hnl]
    rw [filter_ne_nil_id _ (fun x hx => hextne x (List.mem_reverse.mp hx))]

/-- With no incoming segment (first loop iteration), an iteration with no
empty interior piece yields the file lines of the chunk after the first
piece, in reverse order, and carries the first piece onward. -/
theorem processChunk_none_spec (c : List Char) (hc : c ≠ [])
    (Hp : ∀ l ∈ ((splitNl c).dropLast).tail, l ≠ []) :
    processChunk c none = ((fileLines c).tail.reverse, (splitNl c).headD []) := by
  by_cases hnl : c.getLast? = some '\n'
  · obtain ⟨D, hD, hDne⟩ := splitNl_ends_nl c hnl
    have hdrop : (splitNl c).dropLast = D := by rw [hD, List.dropLast_concat]
    obtain ⟨d0, drest, rfl⟩ : ∃ d0 drest, D = d0 :: drest := by
      cases D with
      | nil => exact absurd rfl hDne
      | cons d0 drest => exact ⟨d0, drest, rfl⟩
    have hdrest : ∀ x ∈ drest, x ≠ [] := by
      intro x hx
      exact Hp x (by simp [hdrop, hx])
    have hfl : fileLines c = d0 :: drest := by
      rw [fileLines, if_neg hc, if_pos hnl, hdrop]
    rw [processChunk, hfl, hD]
    simp only [List.cons_append, List.tail_cons, List.reverse_append]
    rw [List.filter_append]
    rw [filter_ne_nil_id drest.reverse (fun x hx => hdrest x (List.mem_reverse.mp hx))]
    simp
  · have hLne : (splitNl c).getLastD [] ≠ [] :=
      fun h => hnl ((splitNl_lastPiece_empty_iff c hc).mp h)
    have hfl : fileLines c = splitNl c := by
      rw [fileLines, if_neg hc, if_neg hnl]
    have htailne : ∀ x ∈ (splitNl c).tail, x ≠ [] := by
      intro x hx
      have hdecomp : (splitNl c).dropLast ++ [(splitNl c).getLastD []] = splitNl c :=
        dropLast_append_getLastD [] _ (splitNl_ne_nil c)
      cases hdrop : (splitNl c).dropLast with
      | nil =>
        rw [hdrop] at hdecomp
        rw [← hdecomp] at hx
        simp at hx
      | cons d0 drest =>
        rw [hdrop] at hdecomp
        rw [← hdecomp] at hx
        simp only [List.cons_append, List.tail_cons] at hx
        rcases List.mem_append.mp hx with h | h
        · exact Hp x (by simp [hdrop, h])
        · rw [List.mem_singleton.mp h]
          exact hLne
    rw [processChunk, hfl]
    rw [filter_ne_nil_id _ (fun x hx => htailne x (List.mem_reverse.mp hx))]

/-- Processing all chunks of a nonempty string `u` with an incoming segment
`sg` (and then flushing the final segment) yields exactly the pieces of `u`
with the last one extended by `sg`, in reverse order — provided no piece
other than the last is empty, and `sg` is nonempty whenever `u` ends in a
newline. -/
theorem rrLoop_some (b : Nat) :
    ∀ (n : Nat) (u sg : List Char),
      u.length ≤ n → u ≠ [] →
      (∀ l ∈ (splitNl u).dropLast, l ≠ []) →
      (u.getLast? = some '\n' → sg ≠ []) →
      rrLoop (chunksFromEnd b u).reverse (some sg) = (extPieces u sg).reverse := by
  intro n
  induction n with
  | zero =>
    intro u sg hlen hne _ _
    exact absurd (List.eq_nil_of_length_eq_zero (Nat.le_zero.mp hlen)) hne
  | succ n ih =>
    intro u sg hlen hne Hp He
    rw [chunksFromEnd_unfold]
    by_cases hsize : u.length ≤ b ∨ b = 0
    · rw [if_pos hsize]
      simp only [List.reverse_cons, List.reverse_nil, List.nil_append, rrLoop]
      rw [processChunk_some_spec u sg hne
        (fun l hl => Hp l (List.mem_of_mem_tail hl)) He]
      exact tail_reverse_headD [] _ (by simp [extPieces])
    · rw [if_neg hsize]
      push_neg at hsize
      obtain ⟨hblt, hbne⟩ := hsize
      have hblt' : b < u.length := hblt
      set F := u.take (u.length - b) with hFdef
      set B := u.drop (u.length - b) with hBdef
      have hFB : F ++ B = u := List.take_append_drop _ u
      have hlenF : F.length = u.length - b := by
        rw [hFdef, List.length_take]; omega
      have hlenB : B.length = b := by
        rw [hBdef, List.length_drop]; omega
      have hFne : F ≠ [] := by
        intro h
        rw [h] at hlenF
        simp at hlenF
        omega
      have hBne : B ≠ [] := by
        intro h
        rw [h] at hlenB
        simp at hlenB
        omega
      have hBlast : B.getLast? = u.getLast? := by
        conv_rhs => rw [← hFB]
        rw [List.getLast?_append_of_ne_nil _ hBne]
      rw [List.reverse_append]
      show rrLoop (B :: (chunksFromEnd b F).reverse) (some sg) = (extPieces u sg).reverse
      simp only [rrLoop]
      cases hTB : (splitNl B).tail with
      | nil =>
        have hHBne : (splitNl B).headD [] ≠ [] := splitNl_headD_ne_of_tail_nil B hBne hTB
        have hSB : splitNl B = [(splitNl B).headD []] := by
          conv_lhs => rw [← splitNl_headD_tail B]
          rw [hTB]
        have hBnl : B.getLast? ≠ some '\n' := by
          intro hnl
          have hLB := (splitNl_lastPiece_empty_iff B hBne).mpr hnl
          rw [hSB, List.getLastD_cons, List.getLastD_nil] at hLB
          exact hHBne hLB
        have hu : splitNl u =
            (splitNl F).dropLast ++
              [(splitNl F).getLastD [] ++ (splitNl B).headD []] := by
          conv_lhs => rw [← hFB]
          rw [splitNl_append, hTB]
        have hdropu : (splitNl u).dropLast = (splitNl F).dropLast := by
          rw [hu, List.dropLast_concat]
        have hgetlu : (splitNl u).getLastD [] =
            (splitNl F).getLastD [] ++ (splitNl B).headD [] := by
          rw [hu, List.getLastD_concat]
        have hpcB := processChunk_some_spec B sg hBne
          (by rw [hSB]; simp) (fun hnl => absurd hnl hBnl)
        have hextB : extPieces B sg = [(splitNl B).headD [] ++ sg] := by
          rw [extPieces]
          conv_lhs => rw [hSB]
          simp [List.getLastD_cons]
        rw [hpcB, hextB]
        simp only [List.tail_cons, List.reverse_nil, List.nil_append, List.headD_cons]
        have hih := ih F ((splitNl B).headD [] ++ sg) (by omega) hFne
          (fun l hl => Hp l (by rw [hdropu]; exact hl))
          (fun _ hcon => hHBne (List.append_eq_nil.mp hcon).1)
        exact hih.trans (by rw [extPieces, extPieces, hdropu, hgetlu, List.append_assoc])
      | cons t0 ts =>
        have hSB : splitNl B = (splitNl B).headD [] :: t0 :: ts := by
          conv_lhs => rw [← splitNl_headD_tail B]
          rw [hTB]
        have hu : splitNl u =
            (splitNl F).dropLast ++
              ((splitNl F).getLastD [] ++ (splitNl B).headD []) :: t0 :: ts := by
          conv_lhs => rw [← hFB]
          rw [splitNl_append, hTB]
        have hdropu : (splitNl u).dropLast =
            (splitNl F).dropLast ++
              ((splitNl F).getLastD [] ++ (splitNl B).headD []) ::
                (t0 :: ts).dropLast := by
          rw [hu, List.dropLast_append_cons, List.dropLast_cons₂]
        have hgetlu : (splitNl u).getLastD [] = (t0 :: ts).getLastD [] := by
          rw [hu, getLastD_append_of_ne_nil _ _ _ (by simp),
            getLastD_cons_of_ne_nil _ _ _ (by simp)]
        have hgetlB : (splitNl B).getLastD [] = (t0 :: ts).getLastD [] := by
          conv_lhs => rw [hSB]
          rw [getLastD_cons_of_ne_nil _ _ _ (by simp)]
        have hdropB : (splitNl B).dropLast =
            (splitNl B).headD [] :: (t0 :: ts).dropLast := by
          conv_lhs => rw [hSB]
          rw [List.dropLast_cons₂]
        have HpB : ∀ l ∈ ((splitNl B).dropLast).tail, l ≠ [] := by
          rw [hdropB]
          simp only [List.tail_cons]
          intro l hl
          apply Hp
          rw [hdropu]
          exact List.mem_append_right _ (List.mem_cons_of_mem _ hl)
        have HeB : B.getLast? = some '\n' → sg ≠ [] := by
          rw [hBlast]; exact He
        have hpcB := processChunk_some_spec B sg hBne HpB HeB
        have hextB : extPieces B sg =
            ((splitNl B).headD [] :: (t0 :: ts).dropLast) ++
              [(t0 :: ts).getLastD [] ++ sg] := by
          rw [extPieces, hdropB, hgetlB]
        have HeF : F.getLast? = some '\n' → (splitNl B).headD [] ≠ [] := by
          intro hFnl hcon
          have hLF : (splitNl F).getLastD [] = [] :=
            (splitNl_lastPiece_empty_iff F hFne).mpr hFnl
          have hm : ((splitNl F).getLastD [] ++ (splitNl B).headD []) ∈
              (splitNl u).dropLast := by
            rw [hdropu]
            exact List.mem_append_right _ (List.mem_cons_self _ _)
          exact Hp _ hm (by rw [hLF, hcon]; rfl)
        rw [hpcB, hextB]
        simp only [List.cons_append, List.tail_cons, List.headD_cons]
        rw [ih F ((splitNl B).headD []) (by omega) hFne
          (fun l hl => Hp l (by
            rw [hdropu]
            exact List.mem_append_left _ hl)) HeF]
        rw [← List.reverse_append]
        congr 1
        rw [extPieces, extPieces, hdropu, hgetlu]
        simp [List.append_assoc]

theorem fileLines_ne_nil (s : List Char) (hs : s ≠ []) :
    fileLines s ≠ [] ∧ (fileLines s).headD [] = (splitNl s).headD [] := by
  rw [fileLines, if_neg hs]
  by_cases hnl : s.getLast? = some '\n'
  · rw [if_pos hnl]
    obtain ⟨D, hD, hDne⟩ := splitNl_ends_nl s hnl
    have hdrop : (splitNl s).dropLast = D := by rw [hD, List.dropLast_concat]
    obtain ⟨d0, drest, rfl⟩ : ∃ d0 drest, D = d0 :: drest := by
      cases D with
      | nil => exact absurd rfl hDne
      | cons d0 drest => exact ⟨d0, drest, rfl⟩
    rw [hdrop, hD]
    simp
  · rw [if_neg hnl]
    exact ⟨splitNl_ne_nil s, rfl⟩

/-- Every piece of `splitNl s` other than the final one is a line of `s`. -/
theorem dropLast_mem_fileLines (s : List Char) (hs : s ≠ []) (l : List Char)
    (hl : l ∈ (splitNl s).dropLast) : l ∈ fileLines s := by
  rw [fileLines, if_neg hs]
  by_cases hnl : s.getLast? = some '\n'
  · rw [if_pos hnl]; exact hl
  · rw [if_neg hnl]; exact List.dropLast_subset _ hl

/-- `_reverse_readline` yields exactly the lines of the file in reverse
order, for any chunk size `b > 0`, provided the file has no empty line. -/
theorem revReadline_eq_reverse_fileLines (b : Nat) (s : List Char)
    (hlines : ∀ l ∈ fileLines s, l ≠ []) :
    revReadline b s = (fileLines s).reverse := by
  by_cases hs : s = []
  · subst hs
    simp [revReadline, fileLines]
  · rw [revReadline, if_neg hs]
    rw [chunksFromEnd_unfold]
    by_cases hsize : s.length ≤ b ∨ b = 0
    · rw [if_pos hsize]
      show rrLoop [s] none = (fileLines s).reverse
      simp only [rrLoop]
      rw [processChunk_none_spec s hs
        (fun l hl => hlines l
          (dropLast_mem_fileLines s hs l (List.mem_of_mem_tail hl)))]
      obtain ⟨hfne, hfhead⟩ := fileLines_ne_nil s hs
      rw [← hfhead]
      exact tail_reverse_headD [] _ hfne
    · rw [if_neg hsize]
      push_neg at hsize
      obtain ⟨hblt, hbne⟩ := hsize
      set F := s.take (s.length - b) with hFdef
      set B := s.drop (s.length - b) with hBdef
      have hFB : F ++ B = s := List.take_append_drop _ s
      have hlenF : F.length = s.length - b := by
        rw [hFdef, List.length_take]; omega
      have hlenB : B.length = b := by
        rw [hBdef, List.length_drop]; omega
      have hFne : F ≠ [] := by
        intro h
        rw [h] at hlenF
        simp at hlenF
        omega
      have hBne : B ≠ [] := by
        intro h
        rw [h] at hlenB
        simp at hlenB
        omega
      have hBlast : B.getLast? = s.getLast? := by
        conv_rhs => rw [← hFB]
        rw [List.getLast?_append_of_ne_nil _ hBne]
      rw [List.reverse_append]
      show rrLoop (B :: (chunksFromEnd b F).reverse) none = (fileLines s).reverse
      simp only [rrLoop]
      cases hTB : (splitNl B).tail with
      | nil =>
        have hHBne : (splitNl B).headD [] ≠ [] := splitNl_headD_ne_of_tail_nil B hBne hTB
        have hSB : splitNl B = [(splitNl B).headD []] := by
          conv_lhs => rw [← splitNl_headD_tail B]
          rw [hTB]
        have hBnl : B.getLast? ≠ some '\n' := by
          intro hnl
          have hLB := (splitNl_lastPiece_empty_iff B hBne).mpr hnl
          rw [hSB, List.getLastD_cons, List.getLastD_nil] at hLB
          exact hHBne hLB
        have hsnl : s.getLast? ≠ some '\n' := by
          rw [← hBlast]; exact hBnl
        have hu : splitNl s =
            (splitNl F).dropLast ++
              [(splitNl F).getLastD [] ++ (splitNl B).headD []] := by
          conv_lhs => rw [← hFB]
          rw [splitNl_append, hTB]
        have hfl : fileLines s = splitNl s := by
          rw [fileLines, if_neg hs, if_neg hsnl]
        have hflB : fileLines B = splitNl B := by
          rw [fileLines, if_neg hBne, if_neg hBnl]
        rw [processChunk_none_spec B hBne (by rw [hSB]; simp)]
        rw [hflB, hSB]
        simp only [List.tail_cons, List.reverse_nil, List.nil_append, List.headD_cons]
        have hih := rrLoop_some b F.length F ((splitNl B).headD []) (le_refl _) hFne
          (fun l hl => hlines l (by
            rw [hfl, hu]
            exact List.mem_append_left _ hl))
          (fun _ hcon => hHBne hcon)
        exact hih.trans (by rw [extPieces, hfl, hu])
      | cons t0 ts =>
        have hSB : splitNl B = (splitNl B).headD [] :: t0 :: ts := by
          conv_lhs => rw [← splitNl_headD_tail B]
          rw [hTB]
        have hu : splitNl s =
            (splitNl F).dropLast ++
              ((splitNl F).getLastD [] ++ (splitNl B).headD []) :: t0 :: ts := by
          conv_lhs => rw [← hFB]
          rw [splitNl_append, hTB]
        have hdropB : (splitNl B).dropLast =
            (splitNl B).headD [] :: (t0 :: ts).dropLast := by
          conv_lhs => rw [hSB]
          rw [List.dropLast_cons₂]
        have hmidmem : ((splitNl F).getLastD [] ++ (splitNl B).headD []) ∈ fileLines s := by
          rw [fileLines, if_neg hs]
          by_cases hnl : s.getLast? = some '\n'
          · rw [if_pos hnl, hu, List.dropLast_append_cons, List.dropLast_cons₂]
            exact List.mem_append_right _ (List.mem_cons_self _ _)
          · rw [if_neg hnl, hu]
            exact List.mem_append_right _ (List.mem_cons_self _ _)
        have HpB : ∀ l ∈ ((splitNl B).dropLast).tail, l ≠ [] := by
          rw [hdropB]
          simp only [List.tail_cons]
          intro l hl
          apply hlines
          rw [fileLines, if_neg hs]
          by_cases hnl : s.getLast? = some '\n'
          · rw [if_pos hnl, hu, List.dropLast_append_cons, List.dropLast_cons₂]
            exact List.mem_append_right _ (List.mem_cons_of_mem _ hl)
          · rw [if_neg hnl, hu]
            exact List.mem_append_right _
              (List.mem_cons_of_mem _ (List.dropLast_subset _ hl))
        have HpF : ∀ l ∈ (splitNl F).dropLast, l ≠ [] := by
          intro l hl
          apply hlines
          rw [fileLines, if_neg hs]
          by_cases hnl : s.getLast? = some '\n'
          · rw [if_pos hnl, hu, List.dropLast_append_cons, List.dropLast_cons₂]
            exact List.mem_append_left _ hl
          · rw [if_neg hnl, hu]
            exact List.mem_append_left _ hl
        have HeF : F.getLast? = some '\n' → (splitNl B).headD [] ≠ [] := by
          intro hFnl hcon
          have hLF : (splitNl F).getLastD [] = [] :=
            (splitNl_lastPiece_empty_iff F hFne).mpr hFnl
          exact hlines _ hmidmem (by rw [hLF, hcon]; rfl)
        rw [processChunk_none_spec B hBne HpB]
        have hih := rrLoop_some b F.length F ((splitNl B).headD []) (le_refl _)
          hFne HpF HeF
        rw [hih, ← List.reverse_append]
        congr 1
        rw [extPieces]
        by_cases hnl : B.getLast? = some '\n'
        · have hsnl : s.getLast? = some '\n' := by rw [← hBlast]; exact hnl
          have hflB : fileLines B = (splitNl B).dropLast := by
            rw [fileLines, if_neg hBne, if_pos hnl]
          rw [hflB, hdropB]
          simp only [List.tail_cons]
          rw [fileLines, if_neg hs, if_pos hsnl, hu,
            List.dropLast_append_cons, List.dropLast_cons₂]
          simp [List.append_assoc]
        · have hsnl : s.getLast? ≠ some '\n' := by rw [← hBlast]; exact hnl
          have hflB : fileLines B = splitNl B := by
            rw [fileLines, if_neg hBne, if_neg hnl]
          rw [hflB]
          conv_lhs => rw [hSB]
          simp only [List.tail_cons]
          rw [fileLines, if_neg hs, if_neg hsnl, hu]
          simp [List.append_assoc]

/-- **C3** (corrected). The double reversal is not the identity on every
file: `_reverse_readline` silently drops this file's empty line (at the
default 8192-char buffer), so reading `"a\n\nb"` back in reverse order
yields `["a", "b"]`, not the original `["a", "", "b"]`. -/
theorem revReadline_double_counterexample :
    (revReadline 8192 ['a', '\n', '\n', 'b']).reverse ≠
        fileLines ['a', '\n', '\n', 'b'] ∧
      (revReadline 8192 ['a', '\n', '\n', 'b']).reverse = [['a'], ['b']] ∧
      fileLines ['a', '\n', '\n', 'b'] = [['a'], [], ['b']] := by
  refine ⟨?_, by decide, by decide⟩
  decide

/-- **C3 amended.** For every positive buffer size and every file none of
whose lines is empty, reading the lines yielded by `_reverse_readline` in
reverse order reproduces the original line sequence exactly — covering
files with 0, 1 or more lines, files whose size is an exact multiple of
the buffer size, and files with no trailing line terminator — and an
empty file yields no lines. -/
theorem revReadline_involution (b : Nat) (s : List Char) (hb : 0 < b)
    (hlines : ∀ l ∈ fileLines s, l ≠ []) :
    (revReadline b s).reverse = fileLines s ∧ revReadline b [] = [] := by
  constructor
  · rw [revReadline_eq_reverse_fileLines b s hlines, List.reverse_reverse]
  · rfl

/-- Witness for `revReadline_involution`: a 6-character file whose size is
an exact multiple of the 3-character buffer. -/
theorem revReadline_involution_witness :
    (0 < 3 ∧ ∀ l ∈ fileLines ['a', 'b', '\n', 'c', 'd', '\n'], l ≠ []) ∧
    ((revReadline 3 ['a', 'b', '\n', 'c', 'd', '\n']).reverse =
        fileLines ['a', 'b', '\n', 'c', 'd', '\n'] ∧
      revReadline 3 [] = []) :=
  ⟨⟨by decide, by decide⟩,
    revReadline_involution 3 ['a', 'b', '\n', 'c', 'd', '\n'] (by decide) (by decide)⟩

/-!
### `goodbyeify` on undecodable lines (C6)

The first pass of `goodbyeify` decodes only the lines `_reverse_readline`
yields from the input (`for line in _reverse_readline(input)`), where
`json.loads(line)` / the `parsed["action"]` lookup raises on a line that
is not a valid event record; `parse` stands for that decoding.  The pass
runs inside the `with`-block writing the temporary file, and an exception
there propagates out of `goodbyeify` before the second `with`-block ever
opens the temporary file, so nothing is written to `output`;
`Except.error ()` models that aborted run.  Note that `_reverse_readline`
skips empty lines rather than yielding them, so an undecodable empty line
of the input file may never reach the decoder at all. -/

/-- The first pass over the yielded lines: decode each line, aborting on a
failure; a `Download` by an unseen user gets a `Goodbye` line written just
before it. -/
def goodbyePassE (parse : List Char → Option Event) :
    List (List Char) → List String → Except Unit (List Event)
  | [], _ => .ok []
  | l :: rest, seen =>
    match parse l with
    | none => .error ()
    | some e =>
      match e.act with
      | .download u _ =>
        if u ∈ seen then
          match goodbyePassE parse rest seen with
          | .error _ => .error ()
          | .ok out => .ok (e :: out)
        else
          match goodbyePassE parse rest (u :: seen) with
          | .error _ => .error ()
          | .ok out => .ok (Event.mk e.ts (.goodbye u) :: e :: out)
      | _ =>
        match goodbyePassE parse rest seen with
        | .error _ => .error ()
        | .ok out => .ok (e :: out)

/-- `goodbyeify` at the raw-line level: run the first pass over the lines
`_reverse_readline` yields (default `buf_size` 8192); a decode failure
aborts the run before any output is written, otherwise the temporary
file's (nonempty) lines are reversed into the output. -/
def goodbyeifyE (parse : List Char → Option Event) (file : List Char) :
    Except Unit (List Event) :=
  match goodbyePassE parse (revReadline 8192 file) [] with
  | .error _ => .error ()
  | .ok tmp => .ok tmp.reverse

theorem goodbyePassE_error_of_none (parse : List Char → Option Event) :
    ∀ (r : List (List Char)) (seen : List String),
      (∃ l ∈ r, parse l = none) → goodbyePassE parse r seen = .error () := by
  intro r
  induction r with
  | nil => rintro seen ⟨l, hl, _⟩; simp at hl
  | cons x rest ih =>
    rintro seen ⟨l, hl, hnone⟩
    rcases List.mem_cons.mp hl with h | h
    · subst h
      rw [goodbyePassE, hnone]
    · cases hx : parse x with
      | none => rw [goodbyePassE, hx]
      | some e =>
        obtain ⟨ts, act⟩ := e
        cases act with
        | download v pkg =>
          by_cases hseen : v ∈ seen <;>
            simp [goodbyePassE, hx, hseen, ih seen ⟨l, h, hnone⟩,
              ih (v :: seen) ⟨l, h, hnone⟩]
        | publish pkg => simp [goodbyePassE, hx, ih seen ⟨l, h, hnone⟩]
        | refreshMetadata v => simp [goodbyePassE, hx, ih seen ⟨l, h, hnone⟩]
        | goodbye v => simp [goodbyePassE, hx, ih seen ⟨l, h, hnone⟩]

/-- A decode stand-in for the two kinds of line occurring in the demo
files below: the empty line is undecodable (`json.loads("")` raises), any
other line stands for a valid serialized record (here a
`RefreshMetadata`). -/
def demoParse : List Char → Option Event :=
  fun l => if l = [] then none else some (Event.mk 0 (.refreshMetadata "u"))

/-- **C6** (corrected).  An undecodable line of the input log need not
abort `goodbyeify`: in the file `"R\n\n"` the empty second line fails to
decode, yet `_reverse_readline` silently drops it (only `"R"` is yielded),
so the run completes and writes non-empty output — contradicting "raises a
fatal error and the output remains empty". -/
theorem goodbyeify_skips_undecodable_empty_line :
    (∃ l ∈ fileLines ['R', '\n', '\n'], demoParse l = none) ∧
    goodbyeifyE demoParse ['R', '\n', '\n'] =
      .ok [Event.mk 0 (.refreshMetadata "u")] :=
  ⟨⟨[], by decide, rfl⟩, rfl⟩

/-- **C6 amended.** If any line `_reverse_readline` yields from the input
fails to decode as a valid event record, `goodbyeify` raises the fatal
error with no recovery and no line is ever written to the final output
(the output remains empty); an undecodable empty line of the input file,
however, may be dropped by `_reverse_readline` before decoding and then
triggers no error. -/
theorem goodbyeify_malformed_aborts (parse : List Char → Option Event)
    (file : List Char)
    (h : ∃ l ∈ revReadline 8192 file, parse l = none) :
    goodbyeifyE parse file = .error () := by
  rw [goodbyeifyE, goodbyePassE_error_of_none parse _ [] h]

/-- Witness for `goodbyeify_malformed_aborts`: a file starting with an
empty line, which `_reverse_readline` does yield here (as the final
carried segment), so the decode failure aborts the run. -/
theorem goodbyeify_malformed_aborts_witness :
    (∃ l ∈ revReadline 8192 ['\n', 'X'], demoParse l = none) ∧
    goodbyeifyE demoParse ['\n', 'X'] = .error () :=
  ⟨⟨[], by decide, rfl⟩,
    goodbyeify_malformed_aborts demoParse ['\n', 'X'] ⟨[], by decide, rfl⟩⟩

/-!
## `sslogs/pypi.py` — canonicalization and the upload/download merge

`_run_up_down_query` primes `next_upload = next(upload_iter)` and
`next_download = next(download_iter)` without guarding `StopIteration`,
then merge-sorts the two row streams.  A BigQuery row is modelled by its
used columns; a `NULL` project/name is `none`.  The `user` field stands for
the base64-encoded MD5 digest selected by the download query. -/

/-- `_canonicalize_package`: `package.replace("_", "-").replace(".", "-")
.lower()`.  Applied per character (replacing `_`/`.` by `-` and lower-casing
commutes with the per-character traversal; `-` is unaffected by
lower-casing). -/
def canonicalizePackage (p : String) : String :=
  String.mk (p.data.map (fun c => if c = '_' ∨ c = '.' then '-' else c.toLower))

/-- A row of the upload query: `(MIN(upload_time), name)`. -/
structure UpRow where
  ts : Int
  name : Option String
deriving Repr, DecidableEq

/-- A row of the download query: `(timestamp, MD5(...), project)`;
`user` holds the base64 of the digest. -/
structure DlRow where
  ts : Int
  user : String
  project : Option String
deriving Repr, DecidableEq

/-- The entry built in the download branch: skipped if `project` is `NULL`,
otherwise a `Download` with the canonicalized package id. -/
def dlEntry (d : DlRow) : Option Event :=
  match d.project with
  | none => none
  | some p => some (Event.mk d.ts (.download d.user (canonicalizePackage p)))

/-- The entry built in the upload branch: skipped if `name` is `NULL`,
otherwise a `Publish`.  The code computes `_canonicalize_package(package)`
into a local but then constructs the entry from the raw `next_upload[1]`,
so the raw name is what is emitted. -/
def upEntry (u : UpRow) : Option Event :=
  match u.name with
  | none => none
  | some p => some (Event.mk u.ts (.publish p))

def mergeFuel : Nat → List UpRow → List DlRow → List Event
  | 0, _, _ => []
  | fuel + 1, us, ds =>
    match us, ds with
    | [], [] => []
    | [], d :: ds => (dlEntry d).toList ++ mergeFuel fuel [] ds
    | u :: us, [] => (upEntry u).toList ++ mergeFuel fuel us []
    | u :: us, d :: ds =>
      if d.ts < u.ts then (dlEntry d).toList ++ mergeFuel fuel (u :: us) ds
      else (upEntry u).toList ++ mergeFuel fuel us (d :: ds)

/-- The merge loop of `_run_up_down_query`, with the pending
`next_upload`/`next_download` as the heads of the two lists: the download
side is taken when `next_upload is None or (next_download and
next_download[0] < next_upload[0])`, the upload side otherwise, until both
are exhausted. -/
def mergeLists (us : List UpRow) (ds : List DlRow) : List Event :=
  mergeFuel (us.length + ds.length) us ds

theorem mergeFuel_congr :
    ∀ (f₁ : Nat), ∀ (f₂ : Nat) (us : List UpRow) (ds : List DlRow),
      us.length + ds.length ≤ f₁ → us.length + ds.length ≤ f₂ →
      mergeFuel f₁ us ds = mergeFuel f₂ us ds := by
  intro f₁
  induction f₁ with
  | zero =>
    intro f₂ us ds h1 _
    obtain ⟨hu, hd⟩ : us = [] ∧ ds = [] := by
      constructor <;> [skip; skip] <;>
        (apply List.eq_nil_of_length_eq_zero; omega)
    subst hu; subst hd
    cases f₂ <;> rfl
  | succ f ih =>
    intro f₂ us ds h1 h2
    cases f₂ with
    | zero =>
      obtain ⟨hu, hd⟩ : us = [] ∧ ds = [] := by
        constructor <;> [skip; skip] <;>
          (apply List.eq_nil_of_length_eq_zero; omega)
      subst hu; subst hd
      rfl
    | succ g =>
      match us, ds with
      | [], [] => rfl
      | [], d :: ds =>
        show (dlEntry d).toList ++ mergeFuel f [] ds =
          (dlEntry d).toList ++ mergeFuel g [] ds
        rw [ih g [] ds (by simp at h1 ⊢; omega) (by simp at h2 ⊢; omega)]
      | u :: us, [] =>
        show (upEntry u).toList ++ mergeFuel f us [] =
          (upEntry u).toList ++ mergeFuel g us []
        rw [ih g us [] (by simp at h1 ⊢; omega) (by simp at h2 ⊢; omega)]
      | u :: us, d :: ds =>
        show (if d.ts < u.ts then (dlEntry d).toList ++ mergeFuel f (u :: us) ds
            else (upEntry u).toList ++ mergeFuel f us (d :: ds)) =
          (if d.ts < u.ts then (dlEntry d).toList ++ mergeFuel g (u :: us) ds
            else (upEntry u).toList ++ mergeFuel g us (d :: ds))
        by_cases hlt : d.ts < u.ts
        · rw [if_pos hlt, if_pos hlt,
            ih g (u :: us) ds (by simp at h1 ⊢; omega) (by simp at h2 ⊢; omega)]
        · rw [if_neg hlt, if_neg hlt,
            ih g us (d :: ds) (by simp at h1 ⊢; omega) (by simp at h2 ⊢; omega)]

theorem mergeLists_nil_cons (d : DlRow) (ds : List DlRow) :
    mergeLists [] (d :: ds) = (dlEntry d).toList ++ mergeLists [] ds := rfl

theorem mergeLists_cons_nil (u : UpRow) (us : List UpRow) :
    mergeLists (u :: us) [] = (upEntry u).toList ++ mergeLists us [] := rfl

theorem mergeLists_cons_cons (u : UpRow) (us : List UpRow) (d : DlRow) (ds : List DlRow) :
    mergeLists (u :: us) (d :: ds) =
      if d.ts < u.ts then (dlEntry d).toList ++ mergeLists (u :: us) ds
      else (upEntry u).toList ++ mergeLists us (d :: ds) := by
  show (if d.ts < u.ts then
        (dlEntry d).toList ++ mergeFuel (us.length + 1 + ds.length) (u :: us) ds
      else (upEntry u).toList ++ mergeFuel (us.length + 1 + ds.length) us (d :: ds)) = _
  by_cases hlt : d.ts < u.ts
  · rw [if_pos hlt, if_pos hlt]
    rfl
  · rw [if_neg hlt, if_neg hlt]
    show _ = (upEntry u).toList ++ mergeFuel (us.length + (ds.length + 1)) us (d :: ds)
    exact congrArg ((upEntry u).toList ++ ·)
      (mergeFuel_congr _ _ us (d :: ds) (by simp only [List.length_cons]; omega)
        (by simp only [List.length_cons]; omega))

/-- `_run_up_down_query`: the unguarded priming `next(upload_iter)` /
`next(download_iter)` raises before the loop when either stream is empty
(`none`); otherwise the merge runs to completion. -/
def runUpDownQuery (ups : List UpRow) (dls : List DlRow) : Option (List Event) :=
  match ups, dls with
  | [], _ => none
  | _, [] => none
  | _ :: _, _ :: _ => some (mergeLists ups dls)

/-- The event an upload row with a present name produces. -/
def upEventD (u : UpRow) : Event := Event.mk u.ts (.publish (u.name.getD ""))

/-- The event a download row with a present project produces. -/
def dlEventD (d : DlRow) : Event :=
  Event.mk d.ts (.download d.user (canonicalizePackage (d.project.getD "")))

theorem upEntry_eq (u : UpRow) (h : u.name.isSome = true) :
    upEntry u = some (upEventD u) := by
  cases hn : u.name with
  | none => rw [hn] at h; simp at h
  | some p => simp [upEntry, upEventD, hn]

theorem dlEntry_eq (d : DlRow) (h : d.project.isSome = true) :
    dlEntry d = some (dlEventD d) := by
  cases hn : d.project with
  | none => rw [hn] at h; simp at h
  | some p => simp [dlEntry, dlEventD, hn]

/-- The merge emits exactly one event per row (when no row has a missing
package id), i.e. it is a permutation of the two mapped inputs. -/
theorem mergeLists_perm :
    ∀ (us : List UpRow) (ds : List DlRow),
      (∀ u ∈ us, u.name.isSome = true) → (∀ d ∈ ds, d.project.isSome = true) →
      List.Perm (mergeLists us ds) (us.map upEventD ++ ds.map dlEventD) := by
  intro us
  induction us with
  | nil =>
    intro ds _ hds
    induction ds with
    | nil => exact List.Perm.refl _
    | cons d ds ihd =>
      rw [mergeLists_nil_cons, dlEntry_eq d (hds d (by simp)), Option.toList_some]
      simp only [List.map_nil, List.nil_append, List.map_cons, List.cons_append]
      exact (ihd (fun x hx => hds x (by simp [hx]))).cons _
  | cons u us ihu =>
    intro ds hus
    induction ds with
    | nil =>
      intro _
      rw [mergeLists_cons_nil, upEntry_eq u (hus u (by simp)), Option.toList_some]
      simp only [List.map_cons, List.map_nil, List.cons_append]
      exact (ihu [] (fun x hx => hus x (by simp [hx])) (by simp)).cons _
    | cons d ds ihd =>
      intro hds
      rw [mergeLists_cons_cons]
      by_cases hlt : d.ts < u.ts
      · rw [if_pos hlt, dlEntry_eq d (hds d (by simp)), Option.toList_some]
        have hrec := ihd (fun x hx => hds x (by simp [hx]))
        simp only [List.cons_append, List.map_cons]
        exact List.Perm.trans (hrec.cons (dlEventD d))
          (by simpa using (@List.perm_middle _ (dlEventD d)
            ((u :: us).map upEventD) (ds.map dlEventD)).symm)
      · rw [if_neg hlt, upEntry_eq u (hus u (by simp)), Option.toList_some]
        have hrec := ihu (d :: ds) (fun x hx => hus x (by simp [hx])) hds
        simp only [List.map_cons, List.cons_append]
        exact hrec.cons _

/-- Any element of the merged output has a timestamp bounded below by any
common lower bound of the two inputs. -/
theorem mergeLists_ts_lower (t : Int) (us : List UpRow) (ds : List DlRow)
    (hn : ∀ u ∈ us, u.name.isSome = true) (hp : ∀ d ∈ ds, d.project.isSome = true)
    (hu : ∀ u ∈ us, t ≤ u.ts) (hd : ∀ d ∈ ds, t ≤ d.ts) :
    ∀ e ∈ mergeLists us ds, t ≤ e.ts := by
  intro e he
  have hmem := (mergeLists_perm us ds hn hp).mem_iff.mp he
  rcases List.mem_append.mp hmem with h | h
  · obtain ⟨u, hu2, rfl⟩ := List.mem_map.mp h
    exact hu u hu2
  · obtain ⟨d, hd2, rfl⟩ := List.mem_map.mp h
    exact hd d hd2

/-- Merging two individually non-decreasing row streams yields a
non-decreasing event stream. -/
theorem mergeLists_sorted :
    ∀ (us : List UpRow) (ds : List DlRow),
      (∀ u ∈ us, u.name.isSome = true) → (∀ d ∈ ds, d.project.isSome = true) →
      List.Pairwise (fun a b => a.ts ≤ b.ts) us →
      List.Pairwise (fun a b => a.ts ≤ b.ts) ds →
      List.Pairwise (fun (a b : Event) => a.ts ≤ b.ts) (mergeLists us ds) := by
  intro us
  induction us with
  | nil =>
    intro ds _ hdp
    induction ds with
    | nil => intro _ _; exact List.Pairwise.nil
    | cons d ds ihd =>
      intro _ hsd
      obtain ⟨hdhead, hdrest⟩ := List.pairwise_cons.mp hsd
      rw [mergeLists_nil_cons, dlEntry_eq d (hdp d (by simp)), Option.toList_some]
      simp only [List.cons_append, List.nil_append]
      rw [List.pairwise_cons]
      refine ⟨?_, ihd (fun x hx => hdp x (by simp [hx])) (by simp) hdrest⟩
      intro e he
      exact mergeLists_ts_lower d.ts [] ds (by simp)
        (fun x hx => hdp x (by simp [hx])) (by simp) hdhead e he
  | cons u us ihu =>
    intro ds hun
    induction ds with
    | nil =>
      intro _ hsu _
      obtain ⟨huhead, hurest⟩ := List.pairwise_cons.mp hsu
      rw [mergeLists_cons_nil, upEntry_eq u (hun u (by simp)), Option.toList_some]
      simp only [List.cons_append]
      rw [List.pairwise_cons]
      refine ⟨?_, ihu [] (fun x hx => hun x (by simp [hx])) (by simp) hurest (by simp)⟩
      intro e he
      exact mergeLists_ts_lower u.ts us [] (fun x hx => hun x (by simp [hx]))
        (by simp) huhead (by simp) e he
    | cons d ds ihd =>
      intro hdp hsu hsd
      obtain ⟨huhead, hurest⟩ := List.pairwise_cons.mp hsu
      obtain ⟨hdhead, hdrest⟩ := List.pairwise_cons.mp hsd
      rw [mergeLists_cons_cons]
      by_cases hlt : d.ts < u.ts
      · rw [if_pos hlt, dlEntry_eq d (hdp d (by simp)), Option.toList_some]
        simp only [List.cons_append]
        rw [List.pairwise_cons]
        refine ⟨?_, ihd (fun x hx => hdp x (by simp [hx])) hsu hdrest⟩
        intro e he
        refine mergeLists_ts_lower d.ts (u :: us) ds hun
          (fun x hx => hdp x (by simp [hx])) ?_ hdhead e he
        intro x hx
        rcases List.mem_cons.mp hx with h | h
        · rw [h]; omega
        · have := huhead x h
          omega
      · rw [if_neg hlt, upEntry_eq u (hun u (by simp)), Option.toList_some]
        simp only [List.cons_append]
        rw [List.pairwise_cons]
        refine ⟨?_, ihu (d :: ds) (fun x hx => hun x (by simp [hx])) hdp hurest hsd⟩
        intro e he
        refine mergeLists_ts_lower u.ts us (d :: ds)
          (fun x hx => hun x (by simp [hx])) hdp huhead ?_ e he
        intro x hx
        rcases List.mem_cons.mp hx with h | h
        · rw [h]; omega
        · have := hdhead x h
          omega

/-- `_run_initial_query`: canonicalize each non-NULL name, dedupe via the
`seen` set, and emit one `Publish` per package at timestamp `start`. -/
def runInitialQuery (start : Int) : List (Option String) → List String → List Event
  | [], _ => []
  | none :: rest, seen => runInitialQuery start rest seen
  | some p :: rest, seen =>
    if canonicalizePackage p ∈ seen then runInitialQuery start rest seen
    else Event.mk start (.publish (canonicalizePackage p)) ::
      runInitialQuery start rest (canonicalizePackage p :: seen)

/-- Every event of the initial query carries a canonicalized package id (in
contrast with the upload branch of the merge, which does not). -/
theorem runInitialQuery_canonical (start : Int) :
    ∀ (rows : List (Option String)) (seen : List String),
      ∀ e ∈ runInitialQuery start rows seen,
        ∃ p, e = Event.mk start (.publish (canonicalizePackage p)) := by
  intro rows
  induction rows with
  | nil => intro seen e he; simp [runInitialQuery] at he
  | cons r rest ih =>
    intro seen e he
    cases r with
    | none => exact ih seen e he
    | some p =>
      rw [runInitialQuery] at he
      by_cases hseen : canonicalizePackage p ∈ seen
      · rw [if_pos hseen] at he
        exact ih seen e he
      · rw [if_neg hseen] at he
        rcases List.mem_cons.mp he with h | h
        · exact ⟨p, h⟩
        · exact ih _ e h

/-- **C2** (corrected). The merge does not tolerate an empty producer: the
unguarded `next(upload_iter)` / `next(download_iter)` priming raises before
the loop, so with an empty upload stream (or an empty download stream) no
event is emitted at all, and the pending events of the other stream are
lost. -/
theorem merge_empty_producer_counterexample :
    runUpDownQuery [] [DlRow.mk 0 "u" (some "p")] = none ∧
    runUpDownQuery [UpRow.mk 0 (some "a")] [] = none :=
  ⟨rfl, rfl⟩

/-- **C2 amended.** For every pair of producer sequences that are both
nonempty, individually non-decreasing by timestamp, and whose rows all
carry a package id, the merge terminates with one globally non-decreasing
sequence containing exactly one event per input row (a permutation of the
two mapped inputs — nothing dropped or duplicated). -/
theorem merge_sorted_complete (ups : List UpRow) (dls : List DlRow)
    (hub : ups ≠ []) (hdb : dls ≠ [])
    (hn : ∀ u ∈ ups, u.name.isSome = true) (hp : ∀ d ∈ dls, d.project.isSome = true)
    (hsu : List.Chain' (fun a b => a.ts ≤ b.ts) ups)
    (hsd : List.Chain' (fun a b => a.ts ≤ b.ts) dls) :
    ∃ out, runUpDownQuery ups dls = some out ∧
      List.Chain' (fun (a b : Event) => a.ts ≤ b.ts) out ∧
      List.Perm out (ups.map upEventD ++ dls.map dlEventD) := by
  haveI h1 : IsTrans UpRow (fun a b => a.ts ≤ b.ts) := ⟨fun _ _ _ hab hbc => le_trans hab hbc⟩
  haveI h2 : IsTrans DlRow (fun a b => a.ts ≤ b.ts) := ⟨fun _ _ _ hab hbc => le_trans hab hbc⟩
  haveI h3 : IsTrans Event (fun a b => a.ts ≤ b.ts) := ⟨fun _ _ _ hab hbc => le_trans hab hbc⟩
  obtain ⟨u, us, rfl⟩ : ∃ u us, ups = u :: us := by
    cases ups with
    | nil => exact absurd rfl hub
    | cons a b => exact ⟨a, b, rfl⟩
  obtain ⟨d, ds, rfl⟩ : ∃ d ds, dls = d :: ds := by
    cases dls with
    | nil => exact absurd rfl hdb
    | cons a b => exact ⟨a, b, rfl⟩
  refine ⟨mergeLists (u :: us) (d :: ds), rfl, ?_, mergeLists_perm _ _ hn hp⟩
  rw [List.chain'_iff_pairwise] at hsu hsd ⊢
  exact mergeLists_sorted _ _ hn hp hsu hsd

/-- Witness for `merge_sorted_complete`: two uploads around one download. -/
theorem merge_sorted_complete_witness :
    (([UpRow.mk 0 (some "a"), UpRow.mk 2 (some "b")] : List UpRow) ≠ [] ∧
      ([DlRow.mk 1 "u" (some "p")] : List DlRow) ≠ [] ∧
      (∀ u ∈ [UpRow.mk 0 (some "a"), UpRow.mk 2 (some "b")], u.name.isSome = true) ∧
      (∀ d ∈ [DlRow.mk 1 "u" (some "p")], d.project.isSome = true) ∧
      List.Chain' (fun a b => a.ts ≤ b.ts) [UpRow.mk 0 (some "a"), UpRow.mk 2 (some "b")] ∧
      List.Chain' (fun a b => a.ts ≤ b.ts) [DlRow.mk 1 "u" (some "p")]) ∧
    (∃ out, runUpDownQuery [UpRow.mk 0 (some "a"), UpRow.mk 2 (some "b")]
          [DlRow.mk 1 "u" (some "p")] = some out ∧
      List.Chain' (fun (a b : Event) => a.ts ≤ b.ts) out ∧
      List.Perm out
        ([UpRow.mk 0 (some "a"), UpRow.mk 2 (some "b")].map upEventD ++
          [DlRow.mk 1 "u" (some "p")].map dlEventD)) :=
  ⟨⟨by decide, by decide, by decide, by decide,
      by simp [List.chain'_cons], by simp [List.chain'_cons]⟩,
    merge_sorted_complete [UpRow.mk 0 (some "a"), UpRow.mk 2 (some "b")]
      [DlRow.mk 1 "u" (some "p")]
      (by decide) (by decide) (by decide) (by decide)
      (by simp [List.chain'_cons]) (by simp [List.chain'_cons])⟩

/-- **C7** (code bug). The upload branch computes
`_canonicalize_package(package)` into a local variable but constructs the
`Publish` entry from the raw `next_upload[1]`, so an upload of
`"Foo_Bar"` is emitted as `Publish("Foo_Bar")`, not the canonical
`"foo-bar"` the spec (and the initial-query/download branches) use. -/
theorem upload_publish_uses_raw_name :
    runUpDownQuery [UpRow.mk 0 (some "Foo_Bar")] [DlRow.mk 1 "u" (some "Pkg")] =
      some [Event.mk 0 (.publish "Foo_Bar"), Event.mk 1 (.download "u" "pkg")] ∧
    canonicalizePackage "Foo_Bar" = "foo-bar" ∧
    ("Foo_Bar" : String) ≠ "foo-bar" := by
  refine ⟨rfl, rfl, by decide⟩

/-- **C8** (confirmed). When the pending upload and download rows carry
equal timestamps the upload (`Publish`) is emitted first and the download
stays pending; in general the download side is selected exactly when its
timestamp is strictly smaller than the upload's. -/
theorem merge_tie_upload_first (u : UpRow) (d : DlRow) (us : List UpRow) (ds : List DlRow) :
    (d.ts = u.ts →
      mergeLists (u :: us) (d :: ds) = (upEntry u).toList ++ mergeLists us (d :: ds)) ∧
    mergeLists (u :: us) (d :: ds) =
      (if d.ts < u.ts then (dlEntry d).toList ++ mergeLists (u :: us) ds
        else (upEntry u).toList ++ mergeLists us (d :: ds)) := by
  refine ⟨?_, mergeLists_cons_cons u us d ds⟩
  intro heq
  rw [mergeLists_cons_cons, if_neg (by omega)]

/-- Witness for `merge_tie_upload_first`: an upload and a download both at
timestamp 5. -/
theorem merge_tie_upload_first_witness :
    (DlRow.mk 5 "u" (some "p")).ts = (UpRow.mk 5 (some "a")).ts ∧
    mergeLists [UpRow.mk 5 (some "a")] [DlRow.mk 5 "u" (some "p")] =
      (upEntry (UpRow.mk 5 (some "a"))).toList ++
        mergeLists [] [DlRow.mk 5 "u" (some "p")] :=
  ⟨rfl, (merge_tie_upload_first (UpRow.mk 5 (some "a")) (DlRow.mk 5 "u" (some "p"))
    [] []).1 rfl⟩

/-!
## `sslogs/logs.py` — `LogEntry.to_dict` timestamp serialization

`to_dict` renders the timestamp with
`self.timestamp.strftime("%Y-%m-%d %H:%M:%S.0 %z")`.  A Python
`datetime` is modelled by its fields (Python bounds them to
`1 ≤ year ≤ 9999`, `1 ≤ month ≤ 12`, etc., so the fixed-width rendering
below is exact on the representable range) plus an optional UTC offset
in minutes (`None` for a naive timestamp, for which `%z` renders as the
empty string). -/

structure PyDateTime where
  year : Nat
  month : Nat
  day : Nat
  hour : Nat
  minute : Nat
  second : Nat
  tz : Option Int
deriving Repr, DecidableEq

/-- Two-digit zero-padded rendering (`%m`, `%d`, `%H`, `%M`, `%S`). -/
def two (n : Nat) : List Char := [Nat.digitChar (n / 10 % 10), Nat.digitChar (n % 10)]

/-- Four-digit zero-padded rendering (`%Y`; Python years are ≤ 9999). -/
def four (n : Nat) : List Char :=
  [Nat.digitChar (n / 1000 % 10), Nat.digitChar (n / 100 % 10),
    Nat.digitChar (n / 10 % 10), Nat.digitChar (n % 10)]

/-- `%z`: empty for a naive timestamp, else `±HHMM` from the UTC offset. -/
def tzChars : Option Int → List Char
  | none => []
  | some o => (if o < 0 then '-' else '+') :: (two (o.natAbs / 60) ++ two (o.natAbs % 60))

/-- `timestamp.strftime("%Y-%m-%d %H:%M:%S.0 %z")`. -/
def strftimeTs (dt : PyDateTime) : List Char :=
  four dt.year ++ '-' :: two dt.month ++ '-' :: two dt.day ++ ' ' :: two dt.hour ++
    ':' :: two dt.minute ++ ':' :: two dt.second ++ '.' :: '0' :: ' ' :: tzChars dt.tz

/-- A `LogEntry` as serialized by `to_dict`: the `action` dict is keyed by
the action's class name; the claim concerns the `timestamp` field. -/
structure PyLogEntry where
  timestamp : PyDateTime
  actionName : String
deriving Repr, DecidableEq

/-- The `"timestamp"` field of `LogEntry.to_dict`. -/
def toDictTimestamp (e : PyLogEntry) : List Char := strftimeTs e.timestamp

def charAt (s : List Char) (i : Nat) (c : Char) : Bool := s.get? i == some c

def digitAt (s : List Char) (i : Nat) : Bool :=
  match s.get? i with
  | some c => c.isDigit
  | none => false

def isOffsetTail : List Char → Bool
  | ['Z'] => true
  | c :: rest =>
    (c == '+' || c == '-') &&
      (match rest with
        | [h1, h2, ':', m1, m2] => h1.isDigit && h2.isDigit && m1.isDigit && m2.isDigit
        | [h1, h2, m1, m2] => h1.isDigit && h2.isDigit && m1.isDigit && m2.isDigit
        | _ => false)
  | _ => false

def isFracOffset (l : List Char) : Bool :=
  match l with
  | '.' :: rest =>
    (! (rest.takeWhile Char.isDigit).isEmpty) && isOffsetTail (rest.dropWhile Char.isDigit)
  | l => isOffsetTail l

/-- Modelled from the spec: "an ISO-8601 timestamp with explicit UTC
offset" — `YYYY-MM-DDTHH:MM:SS`, with the `T` separator at position 10,
an optional fractional part, and a directly attached offset (`Z`,
`±HH:MM` or `±HHMM`; no space before the offset). -/
def isISO8601WithOffset (s : List Char) : Bool :=
  charAt s 10 'T' && charAt s 4 '-' && charAt s 7 '-' && charAt s 13 ':' &&
    charAt s 16 ':' && digitAt s 0 && digitAt s 1 && digitAt s 2 && digitAt s 3 &&
    digitAt s 5 && digitAt s 6 && digitAt s 8 && digitAt s 9 && digitAt s 11 &&
    digitAt s 12 && digitAt s 14 && digitAt s 15 && digitAt s 17 && digitAt s 18 &&
    isFracOffset (s.drop 19)

/-- **C9** (corrected). The timestamp `to_dict` emits is not ISO-8601: for
the aware UTC instant 1970-01-01T00:00:00+00:00 the serialized field is
`"1970-01-01 00:00:00.0 +0000"` — a space instead of the `T` separator and
a space before the numeric offset — which the ISO-8601 validator rejects. -/
theorem toDict_timestamp_not_iso8601 :
    toDictTimestamp (PyLogEntry.mk (PyDateTime.mk 1970 1 1 0 0 0 (some 0)) "Publish") =
      ("1970-01-01 00:00:00.0 +0000").data ∧
    isISO8601WithOffset
      (toDictTimestamp
        (PyLogEntry.mk (PyDateTime.mk 1970 1 1 0 0 0 (some 0)) "Publish")) = false := by
  refine ⟨by decide, rfl⟩

/-- **C9 amended.** For every `LogEntry` the serialized timestamp follows
`"%Y-%m-%d %H:%M:%S.0 %z"`, which is never ISO-8601 (position 10 holds a
space, not `T`); a timezone-aware timestamp gets an explicit trailing
`±HHMM` offset preceded by a space, while a naive timestamp gets no offset
at all (the string ends with `".0 "`). -/
theorem toDict_timestamp_format (e : PyLogEntry) :
    isISO8601WithOffset (toDictTimestamp e) = false ∧
    (∀ o, e.timestamp.tz = some o →
      toDictTimestamp e =
        (four e.timestamp.year ++ '-' :: two e.timestamp.month ++
            '-' :: two e.timestamp.day ++ ' ' :: two e.timestamp.hour ++
            ':' :: two e.timestamp.minute ++ ':' :: two e.timestamp.second ++
            ['.', '0', ' ']) ++
          (if o < 0 then '-' else '+') :: (two (o.natAbs / 60) ++ two (o.natAbs % 60))) ∧
    (e.timestamp.tz = none →
      toDictTimestamp e =
        (four e.timestamp.year ++ '-' :: two e.timestamp.month ++
            '-' :: two e.timestamp.day ++ ' ' :: two e.timestamp.hour ++
            ':' :: two e.timestamp.minute ++ ':' :: two e.timestamp.second ++
            ['.', '0', ' '])) := by
  refine ⟨rfl, ?_, ?_⟩
  · intro o ho
    simp [toDictTimestamp, strftimeTs, tzChars, ho, two, four]
  · intro ho
    simp [toDictTimestamp, strftimeTs, tzChars, ho, two, four]

/-- Witness for `toDict_timestamp_format`: an aware entry at UTC+02:00 and
a naive one. -/
theorem toDict_timestamp_format_witness :
    ((PyLogEntry.mk (PyDateTime.mk 2022 8 1 12 30 5 (some 120)) "Download").timestamp.tz =
        some 120 ∧
      (PyLogEntry.mk (PyDateTime.mk 2022 8 1 12 30 5 none) "Download").timestamp.tz =
        none) ∧
    isISO8601WithOffset
        (toDictTimestamp
          (PyLogEntry.mk (PyDateTime.mk 2022 8 1 12 30 5 (some 120)) "Download")) =
      false ∧
    toDictTimestamp (PyLogEntry.mk (PyDateTime.mk 2022 8 1 12 30 5 (some 120)) "Download") =
      ("2022-08-01 12:30:05.0 +0200").data :=
  ⟨⟨rfl, rfl⟩,
    (toDict_timestamp_format
      (PyLogEntry.mk (PyDateTime.mk 2022 8 1 12 30 5 (some 120)) "Download")).1,
    ((toDict_timestamp_format
      (PyLogEntry.mk (PyDateTime.mk 2022 8 1 12 30 5 (some 120)) "Download")).2.1
        120 rfl).trans (by decide)⟩

end SSnap
